import Mathlib

/-!
Verification of the Secure-2FA vault core against its specification.

The repository ships the Svelte frontend (PIN pad, account cards, modals),
the SQLite schema for the `accounts` table, and an installer; the Rust
backend commands (`encrypt`/`decrypt`, `set_pin`/`verify_pin`/`remove_pin`,
`add_account`/`update_account`/`delete_account`, `get_current_otp`) are not
part of the sources.  Frontend behaviour is embedded directly from the
Svelte sources; the backend operations are modelled from the specification,
as marked on each definition.
-/

namespace Secure2FA

/-- Error taxonomy of the spec (§7): validation, conflict, authentication,
crypto, not-found, parse and I/O failures. -/
inductive VaultError where
  | validation
  | conflict
  | authentication
  | crypto
  | notFound
  | parseError
  | ioError
deriving DecidableEq, Repr

/-! ## SecretCipher (modelled from the spec) -/

/-- Size of the 12-byte nonce space (spec §4.3: nonce is 12 random bytes). -/
def nonceSpace : Nat := 2 ^ 96

/-- Size of the 16-byte authentication-tag space (Poly1305-style MAC). -/
def tagSpace : Nat := 2 ^ 128

/-- Modelled from the spec: the keystream of the 256-bit-key stream cipher
(ChaCha20 family) used by SecretCipher, as an executable pseudorandom byte
function of key, nonce and position. -/
def keystreamByte (key nonce i : Nat) : Nat :=
  (key * 131 + nonce * 257 + i * 31 + 7) % 256

/-- Modelled from the spec: XOR-masking of a byte sequence with the
keystream, starting at stream position `i`.  Applying it twice with the
same key, nonce and position recovers the input. -/
def maskBytes (key nonce : Nat) : Nat → List Nat → List Nat
  | _, [] => []
  | i, b :: bs => (b ^^^ keystreamByte key nonce i) :: maskBytes key nonce (i + 1) bs

/-- Modelled from the spec: the polynomial MAC over the ciphertext body,
reduced into the 128-bit tag space. -/
def bodyHash (key : Nat) (body : List Nat) : Nat :=
  body.foldl (fun a b => a * 257 + b + 1) key % tagSpace

/-- Modelled from the spec: the authentication tag of the AEAD; it binds
the key, the nonce and the ciphertext body. -/
def polyTag (key nonce : Nat) (body : List Nat) : Nat :=
  (nonce + bodyHash key body) % tagSpace

/-- Modelled from the spec (§4.3, SecretCipher, Rust backend not in the
sources): `encrypt(plaintext, key) -> (ciphertext, nonce)`.  The nonce is
drawn fresh from the supply of random 12-byte values, modelled as a state
`rng` that never repeats a draw; the ciphertext is the masked plaintext
followed by the authentication tag.  Returns the ciphertext, the nonce and
the advanced randomness state. -/
def encrypt (key : Nat) (plaintext : List Nat) (rng : Nat) : List Nat × Nat × Nat :=
  let nonce := rng % nonceSpace
  let body := maskBytes key nonce 0 plaintext
  (body ++ [polyTag key nonce body], nonce, rng + 1)

/-- Modelled from the spec (§4.3): `decrypt(ciphertext, nonce, key) ->
plaintext | CryptoError`.  Fails closed: any tag mismatch yields
`CryptoError`, never partial plaintext. -/
def decrypt (key nonce : Nat) (ct : List Nat) : Except VaultError (List Nat) :=
  match ct.getLast? with
  | none => .error .crypto
  | some t =>
      let body := ct.dropLast
      if t = polyTag key nonce body then .ok (maskBytes key nonce 0 body)
      else .error .crypto

/-! ## Data model -/

/-- The `PinVerifier` record of the spec (§3): salt, iteration count and the
derived verification bytes.  Exists only while a PIN is configured. -/
structure PinVerifier where
  salt : Nat
  iterations : Nat
  hash : List Nat
deriving DecidableEq, Repr

/-- One row of the `accounts` table, after `src/unnamed/part_000`:
autoincremented id, issuer, account name, encrypted secret blob, nonce blob
and creation timestamp. -/
structure Account where
  id : Nat
  issuer : String
  accountName : String
  encryptedSecret : List Nat
  secretNonce : Nat
  createdAt : Nat
deriving DecidableEq, Repr

/-- The process-wide vault lock state of the spec (§3). -/
inductive LockState where
  | uninitialized
  | needsSetup
  | locked
  | unlocked
deriving DecidableEq, Repr

/-- Modelled from the spec: the whole persistent vault state — the master
key material, the optional PIN verifier, the `accounts` table with its
autoincrement counter, the randomness supply (a state whose successive
draws never repeat) and the in-process lock state. -/
structure Vault where
  masterKey : Nat
  pinVerifier : Option PinVerifier
  accounts : List Account
  nextId : Nat
  rng : Nat
  clock : Nat
  lock : LockState
deriving DecidableEq, Repr

/-- The bytes of a string, one entry per character. -/
def strBytes (s : String) : List Nat := s.data.map Char.toNat

/-! ## KeyDerivation and PinGate (modelled from the spec) -/

/-- The iteration count fixed at setup time (spec §3: ≥ 100,000). -/
def pinIterations : Nat := 100000

/-- Modelled from the spec (§4.1, KeyDerivation, Rust backend not in the
sources): `derive(pin, salt, iterations) -> derived_bytes`, a deterministic
side-effect-free PBKDF2-style stretch of the PIN with the stored salt and
iteration count.  The model is an idealized collision-free derivation:
equal inputs yield equal outputs, and for a fixed salt and iteration count
distinct PINs yield distinct outputs. -/
def derive (pin : String) (salt iterations : Nat) : List Nat :=
  salt :: iterations :: strBytes pin

/-- Modelled from the spec (§4.2): true iff a PinVerifier is persisted. -/
def hasPin (v : Vault) : Bool := v.pinVerifier.isSome

/-- The PIN format accepted by the command surface: a fixed 4-digit numeric
string, the contract observed on the `PinPad` component
(`MAX_PIN_LENGTH = 4`, digit keys only). -/
def isValidPin (pin : String) : Bool :=
  pin.length == 4 && pin.data.all Char.isDigit

/-- Modelled from the spec (§4.2): re-derive with the stored salt and
iteration count and compare against the stored hash; `false` (not an
error) on mismatch, `false` when no verifier exists. -/
def verifyPin (v : Vault) (pin : String) : Bool :=
  match v.pinVerifier with
  | none => false
  | some pv => decide (derive pin pv.salt pv.iterations = pv.hash)

/-- Modelled from the spec (§4.2): validate the PIN format (reject with
`ValidationError` otherwise), generate a fresh salt from the randomness
supply, derive and store the verifier, transition to `Unlocked`. -/
def setPin (v : Vault) (pin : String) : Except VaultError Vault :=
  if isValidPin pin then
    .ok { v with
          pinVerifier := some ⟨v.rng, pinIterations, derive pin v.rng pinIterations⟩,
          rng := v.rng + 1,
          lock := .unlocked }
  else .error .validation

/-- Modelled from the spec (§4.2): requires `verify_pin` to succeed; on
success deletes the PinVerifier and transitions to `Unlocked`, touching
neither the master key material nor any account record. -/
def removePin (v : Vault) (currentPin : String) : Except VaultError Vault :=
  if verifyPin v currentPin then
    .ok { v with pinVerifier := none, lock := .unlocked }
  else .error .authentication

/-! ## AccountStore -/

/-- Secret cleaning performed by the add-account form before submission
(`AddAccountModal`, `handleSubmit`): remove all whitespace and convert to
upper case (`secretKey.replace` of every whitespace run by the empty string,
then `toUpperCase`). -/
def cleanSecret (s : String) : String :=
  ⟨(s.data.filter (fun c => !c.isWhitespace)).map Char.toUpper⟩

/-- A character of the base32 alphabet: `A`–`Z` or `2`–`7`. -/
def isBase32Char (c : Char) : Bool :=
  ('A' ≤ c && c ≤ 'Z') || ('2' ≤ c && c ≤ '7')

/-- Modelled from the spec (§4.4): syntactic validity of a base32 secret —
non-empty and drawn from the base32 alphabet. -/
def isBase32 (s : String) : Bool :=
  !s.data.isEmpty && s.data.all isBase32Char

/-- Whether an account row carries the given `(issuer, account_name)` key. -/
def sameKey (a : Account) (issuer accountName : String) : Bool :=
  a.issuer == issuer && a.accountName == accountName

/-- Whether some row of the table carries the given key. -/
def hasKey (l : List Account) (issuer accountName : String) : Bool :=
  l.any (fun a => sameKey a issuer accountName)

/-- The `(issuer, account_name)`-uniqueness invariant of the `accounts`
table (`UNIQUE(issuer, account_name)` in `src/unnamed/part_000`). -/
def keysUniqueL (l : List Account) : Prop :=
  l.Pairwise (fun a b => (a.issuer, a.accountName) ≠ (b.issuer, b.accountName))

/-- The reachable-state invariant of the store: unique keys, unique row
ids, and every id below the autoincrement counter. -/
def storeInv (v : Vault) : Prop :=
  keysUniqueL v.accounts ∧ (v.accounts.map Account.id).Nodup ∧
    ∀ a ∈ v.accounts, a.id < v.nextId

/-- Modelled from the spec (§4.4, Rust backend not in the sources):
`add_account(issuer, account_name, secret_plaintext)` — validate that the
cleaned secret is syntactically valid base32 (else `ValidationError`),
refuse a duplicate `(issuer, account_name)` key (`ConflictError`,
enforced by the `UNIQUE` constraint of the schema), otherwise encrypt the
secret via SecretCipher and persist the new row. -/
def addAccount (v : Vault) (issuer accountName secret : String) :
    Except VaultError Vault :=
  let s := cleanSecret secret
  if !isBase32 s then .error .validation
  else if hasKey v.accounts issuer accountName then .error .conflict
  else
    let e := encrypt v.masterKey (strBytes s) v.rng
    .ok { v with
          accounts := v.accounts ++
            [⟨v.nextId, issuer, accountName, e.1, e.2.1, v.clock⟩],
          nextId := v.nextId + 1,
          rng := e.2.2 }

/-- Modelled from the spec (§4.4): metadata-only update — `NotFoundError`
if the id is absent, `ConflictError` if the new key collides with a
different existing row; the encrypted secret and nonce are never touched. -/
def updateAccount (v : Vault) (id : Nat) (issuer accountName : String) :
    Except VaultError Vault :=
  if !v.accounts.any (fun a => a.id == id) then .error .notFound
  else if v.accounts.any (fun a => sameKey a issuer accountName && a.id != id) then
    .error .conflict
  else
    .ok { v with
          accounts := v.accounts.map (fun a =>
            if a.id == id then { a with issuer := issuer, accountName := accountName }
            else a) }

/-- Modelled from the spec (§4.4): delete a row by id, `NotFoundError` if
absent. -/
def deleteAccount (v : Vault) (id : Nat) : Except VaultError Vault :=
  if v.accounts.any (fun a => a.id == id) then
    .ok { v with accounts := v.accounts.filter (fun a => a.id != id) }
  else .error .notFound

/-! ## TotpEngine and the account-card tick (frontend from the sources) -/

/-- The 30-second TOTP time step, `Math.floor(now / 30)` of the account
card's `tick` (`src/unnamed/part_001`), with `now` in unix seconds. -/
def timeStep (now : Nat) : Nat := now / 30

/-- The countdown of the account card's `tick`:
`remainingSeconds = 30 - (now % 30)`. -/
def remainingSeconds (now : Nat) : Nat := 30 - now % 30

/-- Modelled from the spec (§4.5): the 6-digit zero-padded TOTP code for a
decrypted secret at a time step.  The HMAC-SHA1 dynamic truncation of the
RFC is modelled by an executable digest of the secret bytes and the step,
reduced to six decimal digits. -/
def totpCode (secret : List Nat) (step : Nat) : String :=
  let n := (secret.foldl (fun a b => a * 256 + b + 1) step) % 1000000
  let s := toString n
  ⟨List.replicate (6 - s.length) '0' ++ s.data⟩

/-- Modelled from the spec (§4.5, `get_current_otp`, Rust backend not in
the sources): decrypt the stored secret via SecretCipher — propagating
`CryptoError` to the caller, never partial plaintext — then return the
6-digit code for the current time step together with the remaining
seconds of the window. -/
def getCurrentOtp (v : Vault) (ct : List Nat) (nonce now : Nat) :
    Except VaultError (String × Nat) :=
  match decrypt v.masterKey nonce ct with
  | .error e => .error e
  | .ok secret => .ok (totpCode secret (timeStep now), remainingSeconds now)

/-- The display result of the account card's `fetchOtp`
(`src/unnamed/part_001`): the code of a successful response, and the opaque
string "오류" when the backend call fails. -/
def fetchOtpCode (response : Except VaultError (String × Nat)) : String :=
  match response with
  | .ok r => r.1
  | .error _ => "오류"

/-- The per-card timer state of the account card (`src/unnamed/part_001`):
`lastTimeStep` starts at `-1` and records the 30-second cycle number of the
last OTP request, `remaining` mirrors the displayed countdown. -/
structure TickState where
  lastTimeStep : Int
  remaining : Nat
deriving DecidableEq, Repr

/-- The state of a freshly mounted account card: `lastTimeStep = -1`. -/
def tickInit : TickState := ⟨-1, 30⟩

/-- The account card's `tick` (`src/unnamed/part_001`): every second it
recomputes the countdown from the system clock, and only when the
30-second cycle number differs from `lastTimeStep` does it record the new
cycle and request a fresh OTP (the returned flag; `fetchOtp` in the
source). -/
def tick (st : TickState) (now : Nat) : TickState × Bool :=
  let currentTimeStep : Int := (timeStep now : Nat)
  let rem := remainingSeconds now
  if currentTimeStep ≠ st.lastTimeStep then
    ({ lastTimeStep := currentTimeStep, remaining := rem }, true)
  else
    ({ st with remaining := rem }, false)

/-! ## Frontend PIN flow (from the sources) -/

/-- The UI PIN state of the main page (`ScreenCapture.svelte`):
`"loading" | "needs_setup" | "locked" | "unlocked"`. -/
inductive PinState where
  | loading
  | needsSetup
  | locked
  | unlocked
deriving DecidableEq, Repr

/-- `initializePinState` of the main page: on `has_pin` returning true the
UI locks, on false it asks for first-time setup, and when the call itself
throws the catch block also falls back to `needs_setup`. -/
def initializePinState (hasPinResult : Except String Bool) : PinState :=
  match hasPinResult with
  | .ok true => .locked
  | .ok false => .needsSetup
  | .error _ => .needsSetup

/-- `handlePinSubmit` of the main page: the state becomes `unlocked`
exactly when `verify_pin` returned `true`; a `false` result or a thrown
error leaves the state unchanged and only shows an error message. -/
def handlePinSubmit (st : PinState) (verifyResult : Except String Bool) : PinState :=
  match verifyResult with
  | .ok true => .unlocked
  | .ok false => st
  | .error _ => st

/-- `handleInput` of the `PinPad` component: a digit key (the keydown
handler only forwards keys matching `[0-9]`) is appended while the PIN is
shorter than `MAX_PIN_LENGTH = 4`. -/
def pinPadInput (pin : String) (num : Fin 10) : String :=
  if pin.length < 4 then pin ++ toString num.val else pin

/-- The PIN accumulated by a `PinPad` from a sequence of digit key
presses, starting empty. -/
def pinPadRun (inputs : List (Fin 10)) : String :=
  inputs.foldl pinPadInput ""

/-- `handleSubmit` of the `PinPad` component: a PIN shorter than
`MIN_PIN_LENGTH = 4` is rejected with an inline error; otherwise the PIN
is dispatched to the backend. -/
def pinPadSubmit (pin : String) : Option String :=
  if pin.length < 4 then none else some pin

/-! ## Concrete example states -/

/-- A fresh vault: master key generated, no PIN, empty account table. -/
def exVault : Vault :=
  { masterKey := 5, pinVerifier := none, accounts := [], nextId := 1,
    rng := 0, clock := 0, lock := .unlocked }

/-- The example shared secret of the spec's scenario (§8). -/
def exSecret : String := "JBSWY3DPEHPK3PXP"

/-- `exVault` after `set_pin "1234"`. -/
def exVaultPin : Vault :=
  { exVault with
    pinVerifier := some ⟨0, pinIterations, derive "1234" 0 pinIterations⟩,
    rng := 1, lock := .unlocked }

/-- `exVaultPin` after `remove_pin "1234"`. -/
def exVaultNoPin : Vault :=
  { exVaultPin with pinVerifier := none, lock := .unlocked }

/-- The encryption of the example secret under `exVault`'s master key. -/
def exEnc : List Nat × Nat × Nat :=
  encrypt exVault.masterKey (strBytes (cleanSecret exSecret)) exVault.rng

/-- `exVault` after `add_account "GitHub" "dev@example.com" exSecret`. -/
def exVaultAcct : Vault :=
  { exVault with
    accounts := [⟨1, "GitHub", "dev@example.com", exEnc.1, exEnc.2.1, 0⟩],
    nextId := 2, rng := 1 }

/-! # Theorems -/

/-! ## Cipher model facts -/

theorem maskBytes_involutive (key nonce : Nat) :
    ∀ (i : Nat) (bs : List Nat), maskBytes key nonce i (maskBytes key nonce i bs) = bs := by
  intro i bs
  induction bs generalizing i with
  | nil => rfl
  | cons b bs ih =>
      simp [maskBytes, ih, Nat.xor_assoc, Nat.xor_self]

theorem maskBytes_length (key nonce : Nat) :
    ∀ (i : Nat) (bs : List Nat), (maskBytes key nonce i bs).length = bs.length := by
  intro i bs
  induction bs generalizing i with
  | nil => rfl
  | cons b bs ih => simp [maskBytes, ih]

theorem bodyHash_lt (key : Nat) (body : List Nat) : bodyHash key body < tagSpace := by
  have h : 0 < tagSpace := by
    simp [tagSpace]
  exact Nat.mod_lt _ h

theorem nonceSpace_lt_tagSpace : nonceSpace < tagSpace := by
  simp only [nonceSpace, tagSpace]
  exact Nat.pow_lt_pow_right one_lt_two (by norm_num)

/-- Two distinct in-range nonces give distinct tags over the same body. -/
theorem polyTag_nonce_injective (key : Nat) {n1 n2 : Nat}
    (h1 : n1 < nonceSpace) (h2 : n2 < nonceSpace) (hne : n1 ≠ n2)
    (body : List Nat) : polyTag key n1 body ≠ polyTag key n2 body := by
  intro h
  have hmod : n1 + bodyHash key body ≡ n2 + bodyHash key body [MOD tagSpace] := h
  have hcancel : n1 ≡ n2 [MOD tagSpace] := hmod.add_right_cancel' _
  have hb1 : n1 < tagSpace := lt_trans h1 nonceSpace_lt_tagSpace
  have hb2 : n2 < tagSpace := lt_trans h2 nonceSpace_lt_tagSpace
  have heq : n1 % tagSpace = n2 % tagSpace := hcancel
  rw [Nat.mod_eq_of_lt hb1, Nat.mod_eq_of_lt hb2] at heq
  exact hne heq

/-- Decryption inverts encryption for every plaintext and randomness state. -/
theorem decrypt_encrypt (key : Nat) (pt : List Nat) (rng : Nat) :
    decrypt key (encrypt key pt rng).2.1 (encrypt key pt rng).1 = .ok pt := by
  simp only [encrypt, decrypt]
  rw [List.getLast?_concat, List.dropLast_concat]
  simp [maskBytes_involutive]

/-- The only error `decrypt` ever produces is `CryptoError`. -/
theorem decrypt_error_is_crypto {key nonce : Nat} {ct : List Nat} {e : VaultError}
    (h : decrypt key nonce ct = .error e) : e = .crypto := by
  unfold decrypt at h
  cases hl : ct.getLast? with
  | none => rw [hl] at h; cases h; rfl
  | some t =>
      rw [hl] at h
      by_cases ht : t = polyTag key nonce ct.dropLast
      · simp [ht] at h
      · simp [ht] at h; exact h.symm

/-! ## Key-derivation injectivity -/

theorem map_toNat_inj : ∀ {l1 l2 : List Char},
    l1.map Char.toNat = l2.map Char.toNat → l1 = l2 := by
  intro l1
  induction l1 with
  | nil => intro l2 h; cases l2 <;> simp_all
  | cons c l ih =>
      intro l2 h
      cases l2 with
      | nil => simp_all
      | cons d l2 =>
          simp only [List.map_cons, List.cons.injEq] at h
          have hc : c = d := by
            have := congrArg Char.ofNat h.1
            rwa [Char.ofNat_toNat, Char.ofNat_toNat] at this
          exact hc ▸ congrArg (c :: ·) (ih h.2)

theorem strBytes_inj {s t : String} (h : strBytes s = strBytes t) : s = t := by
  have hd : s.data = t.data := map_toNat_inj h
  calc s = ⟨s.data⟩ := rfl
    _ = ⟨t.data⟩ := congrArg String.mk hd
    _ = t := rfl

theorem derive_inj {p q : String} {salt iterations : Nat}
    (h : derive p salt iterations = derive q salt iterations) : p = q := by
  simp only [derive, List.cons.injEq, true_and] at h
  exact strBytes_inj h

/-! ## Tick facts -/

/-- A tick requests a new OTP exactly when the 30-second cycle number
differs from the recorded one. -/
theorem tick_fetch_iff (st : TickState) (now : Nat) :
    (tick st now).2 = true ↔ ((timeStep now : Nat) : Int) ≠ st.lastTimeStep := by
  unfold tick
  dsimp only
  split <;> simp_all

/-- After any tick, the recorded cycle number is the current one. -/
theorem tick_lastTimeStep (st : TickState) (now : Nat) :
    (tick st now).1.lastTimeStep = ((timeStep now : Nat) : Int) := by
  unfold tick
  dsimp only
  split <;> simp_all

/-- After any tick, the displayed countdown is the current one. -/
theorem tick_remaining (st : TickState) (now : Nat) :
    (tick st now).1.remaining = remainingSeconds now := by
  unfold tick
  dsimp only
  split <;> rfl

/-! ## Claim theorems -/

/-- Claim C5: for every unix-seconds timestamp `now`, the engine computes
the time step as `floor(now / 30)` and the countdown as `30 - (now mod
30)`; the returned remaining seconds lie in the range 0..30 (in fact in
1..30).  This holds both for the account card's `tick` and for the
`get_current_otp` response. -/
theorem totp_time_step_and_range (now : Nat) :
    timeStep now = now / 30 ∧
    remainingSeconds now = 30 - now % 30 ∧
    0 < remainingSeconds now ∧ remainingSeconds now ≤ 30 ∧
    (∀ st : TickState,
        (tick st now).1.remaining = remainingSeconds now ∧
        (tick st now).1.lastTimeStep = ((timeStep now : Nat) : Int)) ∧
    (∀ (v : Vault) (ct : List Nat) (n : Nat) (code : String) (rem : Nat),
        getCurrentOtp v ct n now = .ok (code, rem) →
          rem = remainingSeconds now ∧ 0 < rem ∧ rem ≤ 30) := by
  have hlt : now % 30 < 30 := Nat.mod_lt _ (by norm_num)
  refine ⟨rfl, rfl, ?_, ?_, ?_, ?_⟩
  · unfold remainingSeconds; omega
  · unfold remainingSeconds; omega
  · intro st
    exact ⟨tick_remaining st now, tick_lastTimeStep st now⟩
  · intro v ct n code rem h
    unfold getCurrentOtp at h
    cases hd : decrypt v.masterKey n ct with
    | error e => rw [hd] at h; cases h
    | ok secret =>
        rw [hd] at h
        have hr : rem = remainingSeconds now := by
          cases h; rfl
        refine ⟨hr, ?_, ?_⟩ <;> rw [hr] <;> unfold remainingSeconds <;> omega

/-- Claim C5 witness: at `now = 65` the countdown is 25 and the
`get_current_otp` branch is exercised on a concrete encrypted secret. -/
theorem totp_time_step_and_range_witness :
    getCurrentOtp exVault exEnc.1 exEnc.2.1 65 =
      .ok (totpCode (strBytes (cleanSecret exSecret)) (timeStep 65), 25) ∧
    (25 = remainingSeconds 65 ∧ 0 < 25 ∧ 25 ≤ 30) :=
  ⟨rfl, (totp_time_step_and_range 65).2.2.2.2.2 exVault exEnc.1 exEnc.2.1
      (totpCode (strBytes (cleanSecret exSecret)) (timeStep 65)) 25 rfl⟩

/-- Claim C6: across the 1-second tick sequence of a displayed account
card, the OTP (and hence the decryption behind it) is requested exactly
once per 30-second boundary crossing: a tick fetches iff its cycle number
differs from the recorded one, the very first tick after mount fetches,
and the tick one second after any tick fetches iff that second crosses a
30-second boundary. -/
theorem tick_fetch_once_per_boundary (st : TickState) (u : Nat) :
    ((tick st u).2 = true ↔ ((timeStep u : Nat) : Int) ≠ st.lastTimeStep) ∧
    (tick tickInit u).2 = true ∧
    ((tick (tick st u).1 (u + 1)).2 = true ↔ (u + 1) % 30 = 0) := by
  refine ⟨tick_fetch_iff st u, ?_, ?_⟩
  · rw [tick_fetch_iff]
    simp only [tickInit]
    omega
  · rw [tick_fetch_iff, tick_lastTimeStep]
    have : ((timeStep (u + 1) : Nat) : Int) ≠ ((timeStep u : Nat) : Int) ↔
        timeStep (u + 1) ≠ timeStep u := by
      constructor <;> intro h h2 <;> exact h (by exact_mod_cast h2)
    rw [this]
    unfold timeStep
    omega

/-- Claim C7: whenever decryption of a stored secret fails during TOTP
computation, `get_current_otp` returns only `CryptoError` — no code, no
secret bytes, no partial plaintext — and the account card displays the
opaque string "오류" in place of a code. -/
theorem decrypt_failure_shows_error_code (v : Vault) (ct : List Nat) (n now : Nat)
    (h : (decrypt v.masterKey n ct).isOk = false) :
    getCurrentOtp v ct n now = .error .crypto ∧
    fetchOtpCode (getCurrentOtp v ct n now) = "오류" := by
  cases hd : decrypt v.masterKey n ct with
  | ok secret => rw [hd] at h; cases h
  | error e =>
      have he : e = .crypto := decrypt_error_is_crypto hd
      subst he
      constructor
      · unfold getCurrentOtp
        rw [hd]
      · unfold fetchOtpCode getCurrentOtp
        rw [hd]

/-- Claim C7 witness: the empty ciphertext fails decryption and the card
shows "오류". -/
theorem decrypt_failure_shows_error_code_witness :
    (decrypt exVault.masterKey 0 []).isOk = false ∧
    fetchOtpCode (getCurrentOtp exVault [] 0 65) = "오류" :=
  ⟨rfl, (decrypt_failure_shows_error_code exVault [] 0 65 rfl).2⟩

/-- Claim C10: at startup, when the `has_pin` call itself throws, the UI
enters the unprotected `needs_setup` state rather than the locked state;
the locked PIN screen appears only when `has_pin` returned `true`. -/
theorem initialize_pin_state_failure_bypasses_lock :
    (∀ e : String, initializePinState (.error e) = PinState.needsSetup) ∧
    (∀ r : Except String Bool, initializePinState r = PinState.locked ↔ r = .ok true) := by
  constructor
  · intro e; rfl
  · intro r
    cases r with
    | error e => simp [initializePinState]
    | ok b => cases b <;> simp [initializePinState]

/-- Claim C3: after `set_pin(pin0)`, `verify_pin(p)` returns true iff `p`
equals `pin0`; a wrong PIN (of any length, so also of the correct length)
returns false rather than an error; and the UI transitions from the locked
screen to `unlocked` exactly when `verify_pin` returned true. -/
theorem verify_pin_determinism (v v' : Vault) (pin0 : String)
    (h : setPin v pin0 = .ok v') :
    (∀ p, verifyPin v' p = true ↔ p = pin0) ∧
    (∀ p, p ≠ pin0 → verifyPin v' p = false) ∧
    (∀ r : Except String Bool,
        handlePinSubmit PinState.locked r = PinState.unlocked ↔ r = .ok true) := by
  unfold setPin at h
  by_cases hv : isValidPin pin0 = true
  · rw [if_pos hv] at h
    injection h with h
    subst h
    have hiff : ∀ p, verifyPin
        { v with
          pinVerifier := some ⟨v.rng, pinIterations, derive pin0 v.rng pinIterations⟩,
          rng := v.rng + 1, lock := .unlocked } p = true ↔ p = pin0 := by
      intro p
      unfold verifyPin
      simp only [decide_eq_true_eq]
      constructor
      · exact fun hd => derive_inj hd
      · intro hp; subst hp; rfl
    refine ⟨hiff, ?_, ?_⟩
    · intro p hp
      cases hb : verifyPin _ p with
      | false => rfl
      | true => exact absurd ((hiff p).mp hb) hp
    · intro r
      cases r with
      | error e => simp [handlePinSubmit]
      | ok b => cases b <;> simp [handlePinSubmit]
  · rw [if_neg hv] at h
    cases h

/-- Claim C3 witness: with the PIN "1234" set, "1234" verifies, "9999"
(correct length) is rejected with `false`, and a `false` verification
leaves the UI locked. -/
theorem verify_pin_determinism_witness :
    setPin exVault "1234" = .ok exVaultPin ∧
    verifyPin exVaultPin "1234" = true ∧
    verifyPin exVaultPin "9999" = false ∧
    (handlePinSubmit PinState.locked (.ok true) = PinState.unlocked ↔
      (.ok true : Except String Bool) = .ok true) :=
  ⟨rfl,
   ((verify_pin_determinism exVault exVaultPin "1234" rfl).1 "1234").mpr rfl,
   (verify_pin_determinism exVault exVaultPin "1234" rfl).2.1 "9999" (by decide),
   (verify_pin_determinism exVault exVaultPin "1234" rfl).2.2 (.ok true)⟩

/-- Claim C4: `remove_pin(current)` succeeds exactly when
`verify_pin(current)` succeeds; on success it deletes only the
PinVerifier, leaving the master key material and every account row — and
hence every `encrypted_secret`/`secret_nonce` and its decryption — exactly
as they were; changing the PIN via `set_pin` likewise never touches the
master key or the account rows. -/
theorem remove_pin_frame (v : Vault) (p : String) :
    ((removePin v p).isOk = verifyPin v p) ∧
    (∀ v', removePin v p = .ok v' →
        v'.pinVerifier = none ∧ v'.masterKey = v.masterKey ∧
        v'.accounts = v.accounts ∧ v'.lock = .unlocked ∧
        ∀ a ∈ v.accounts,
          decrypt v'.masterKey a.secretNonce a.encryptedSecret =
            decrypt v.masterKey a.secretNonce a.encryptedSecret) ∧
    (∀ pin0 v'', setPin v pin0 = .ok v'' →
        v''.masterKey = v.masterKey ∧ v''.accounts = v.accounts) := by
  refine ⟨?_, ?_, ?_⟩
  · unfold removePin
    cases hb : verifyPin v p <;> simp [hb, Except.isOk, Except.toBool]
  · intro v' h
    unfold removePin at h
    cases hb : verifyPin v p with
    | false => rw [hb] at h; simp at h
    | true =>
        rw [hb] at h
        simp only [if_pos] at h
        injection h with h
        subst h
        exact ⟨rfl, rfl, rfl, rfl, fun a _ => rfl⟩
  · intro pin0 v'' h
    unfold setPin at h
    by_cases hv : isValidPin pin0 = true
    · rw [if_pos hv] at h
      injection h with h
      subst h
      exact ⟨rfl, rfl⟩
    · rw [if_neg hv] at h
      cases h

/-- Claim C4 witness: removing the PIN "1234" from a vault that has it
succeeds and leaves the master key and the account table untouched. -/
theorem remove_pin_frame_witness :
    removePin exVaultPin "1234" = .ok exVaultNoPin ∧
    exVaultNoPin.pinVerifier = none ∧
    exVaultNoPin.masterKey = exVaultPin.masterKey ∧
    exVaultNoPin.accounts = exVaultPin.accounts :=
  ⟨rfl,
   ((remove_pin_frame exVaultPin "1234").2.1 exVaultNoPin rfl).1,
   ((remove_pin_frame exVaultPin "1234").2.1 exVaultNoPin rfl).2.1,
   ((remove_pin_frame exVaultPin "1234").2.1 exVaultNoPin rfl).2.2.1⟩

/-- Claim C1: decrypting the result of encrypting a secret under the
master key yields the secret again, and two successive encryptions of the
same plaintext under the same key (threading the randomness state) produce
distinct nonces and distinct ciphertexts. -/
theorem encrypt_roundtrip_fresh_nonce (key rng : Nat) (s : List Nat)
    (h : rng + 1 < nonceSpace) :
    decrypt key (encrypt key s rng).2.1 (encrypt key s rng).1 = .ok s ∧
    decrypt key (encrypt key s (rng + 1)).2.1 (encrypt key s (rng + 1)).1 = .ok s ∧
    (encrypt key s rng).2.2 = rng + 1 ∧
    (encrypt key s rng).2.1 ≠ (encrypt key s (rng + 1)).2.1 ∧
    (encrypt key s rng).1 ≠ (encrypt key s (rng + 1)).1 := by
  have h1 : rng % nonceSpace = rng := Nat.mod_eq_of_lt (by omega)
  have h2 : (rng + 1) % nonceSpace = rng + 1 := Nat.mod_eq_of_lt h
  have hne : rng % nonceSpace ≠ (rng + 1) % nonceSpace := by omega
  refine ⟨decrypt_encrypt key s rng, decrypt_encrypt key s (rng + 1), rfl, ?_, ?_⟩
  · simpa only [encrypt] using hne
  · simp only [encrypt]
    intro hct
    have hlen : (maskBytes key (rng % nonceSpace) 0 s).length =
        (maskBytes key ((rng + 1) % nonceSpace) 0 s).length := by
      rw [maskBytes_length, maskBytes_length]
    obtain ⟨hbody, htag⟩ := List.append_inj hct hlen
    have htag' : polyTag key (rng % nonceSpace) (maskBytes key (rng % nonceSpace) 0 s) =
        polyTag key ((rng + 1) % nonceSpace) (maskBytes key (rng % nonceSpace) 0 s) := by
      have := List.head_eq_of_cons_eq htag
      rw [this, hbody]
    exact polyTag_nonce_injective key (Nat.mod_lt _ (by simp [nonceSpace]))
      (Nat.mod_lt _ (by simp [nonceSpace])) hne _ htag'

/-- Claim C1 witness: a concrete secret round-trips through the cipher and
the two successive encryptions differ. -/
theorem encrypt_roundtrip_fresh_nonce_witness :
    (0 + 1 < nonceSpace) ∧
    decrypt 5 (encrypt 5 (strBytes exSecret) 0).2.1 (encrypt 5 (strBytes exSecret) 0).1 =
      .ok (strBytes exSecret) ∧
    (encrypt 5 (strBytes exSecret) 0).2.1 ≠ (encrypt 5 (strBytes exSecret) 1).2.1 ∧
    (encrypt 5 (strBytes exSecret) 0).1 ≠ (encrypt 5 (strBytes exSecret) 1).1 :=
  ⟨by norm_num [nonceSpace],
   (encrypt_roundtrip_fresh_nonce 5 0 (strBytes exSecret) (by norm_num [nonceSpace])).1,
   (encrypt_roundtrip_fresh_nonce 5 0 (strBytes exSecret) (by norm_num [nonceSpace])).2.2.2.1,
   (encrypt_roundtrip_fresh_nonce 5 0 (strBytes exSecret) (by norm_num [nonceSpace])).2.2.2.2⟩

/-! ## PinPad facts -/

theorem pinPad_digit_chars : ∀ m : Fin 10,
    (toString m.val).length = 1 ∧ (toString m.val).data.all Char.isDigit = true := by
  decide

theorem pinPad_foldl_inv : ∀ (inputs : List (Fin 10)) (acc : String),
    acc.length ≤ 4 → (∀ c ∈ acc.data, c.isDigit = true) →
    (inputs.foldl pinPadInput acc).length ≤ 4 ∧
      ∀ c ∈ (inputs.foldl pinPadInput acc).data, c.isDigit = true := by
  intro inputs
  induction inputs with
  | nil => intro acc h1 h2; exact ⟨h1, h2⟩
  | cons n ns ih =>
      intro acc h1 h2
      rw [List.foldl_cons]
      apply ih
      · unfold pinPadInput
        split
        · rw [String.length_append, (pinPad_digit_chars n).1]
          omega
        · exact h1
      · unfold pinPadInput
        split
        · intro c hc
          rw [String.data_append, List.mem_append] at hc
          cases hc with
          | inl hc => exact h2 c hc
          | inr hc =>
              have := (pinPad_digit_chars n).2
              rw [List.all_eq_true] at this
              exact this c hc
        · exact h2

/-- Claim C8: `set_pin` accepts exactly the fixed 4-digit numeric PINs and
rejects every other input with `ValidationError`; on acceptance it stores
a verifier derived from a freshly drawn salt, advances the randomness
supply, and transitions the lock state to `Unlocked`.  The 4-digit numeric
format is exactly what the `PinPad` component can ever submit. -/
theorem set_pin_validation (v : Vault) (pin : String) :
    (isValidPin pin = false → setPin v pin = .error .validation) ∧
    (∀ v', setPin v pin = .ok v' →
        isValidPin pin = true ∧
        v'.pinVerifier = some ⟨v.rng, pinIterations, derive pin v.rng pinIterations⟩ ∧
        v'.rng = v.rng + 1 ∧ v'.lock = .unlocked) ∧
    (isValidPin pin = true ↔ pin.length = 4 ∧ ∀ c ∈ pin.data, c.isDigit = true) ∧
    (∀ (inputs : List (Fin 10)) (p : String),
        pinPadSubmit (pinPadRun inputs) = some p → isValidPin p = true) := by
  refine ⟨?_, ?_, ?_, ?_⟩
  · intro h
    unfold setPin
    rw [if_neg (by rw [h]; exact Bool.false_ne_true)]
  · intro v' h
    unfold setPin at h
    by_cases hv : isValidPin pin = true
    · rw [if_pos hv] at h
      injection h with h
      subst h
      exact ⟨hv, rfl, rfl, rfl⟩
    · rw [if_neg hv] at h
      cases h
  · unfold isValidPin
    rw [Bool.and_eq_true, beq_iff_eq, List.all_eq_true]
  · intro inputs p h
    unfold pinPadSubmit at h
    split at h
    · cases h
    · rename_i hlen
      injection h with h
      subst h
      have hinv := pinPad_foldl_inv inputs "" (by simp) (by simp)
      unfold isValidPin
      rw [Bool.and_eq_true, beq_iff_eq, List.all_eq_true]
      unfold pinPadRun at hlen hinv ⊢
      exact ⟨by omega, hinv.2⟩

/-- Claim C8 witness: "1234" is accepted and stored with a fresh salt,
"12a4" is rejected with `ValidationError`, and the `PinPad` submits
"1234" from the key presses 1-2-3-4. -/
theorem set_pin_validation_witness :
    setPin exVault "1234" = .ok exVaultPin ∧
    isValidPin "1234" = true ∧
    exVaultPin.rng = exVault.rng + 1 ∧
    exVaultPin.lock = .unlocked ∧
    setPin exVault "12a4" = .error .validation ∧
    isValidPin (pinPadRun [1, 2, 3, 4]) = true :=
  ⟨rfl,
   ((set_pin_validation exVault "1234").2.1 exVaultPin rfl).1,
   ((set_pin_validation exVault "1234").2.1 exVaultPin rfl).2.2.1,
   ((set_pin_validation exVault "1234").2.1 exVaultPin rfl).2.2.2,
   (set_pin_validation exVault "12a4").1 (by decide),
   (set_pin_validation exVault "1234").2.2.2 [1, 2, 3, 4] (pinPadRun [1, 2, 3, 4]) rfl⟩

/-- Claim C9: `add_account` validates that the secret — after removing all
whitespace and upper-casing, exactly the cleaning the add-account form
performs — is syntactically valid base32; it fails with `ValidationError`
on a malformed secret and with `ConflictError` on a duplicate
`(issuer, account_name)` key, and only on success does it encrypt the
secret and append the row, whose stored ciphertext decrypts back to the
cleaned secret. -/
theorem add_account_validation (v : Vault) (issuer accountName secret : String) :
    (isBase32 (cleanSecret secret) = false →
        addAccount v issuer accountName secret = .error .validation) ∧
    (isBase32 (cleanSecret secret) = true →
        hasKey v.accounts issuer accountName = true →
        addAccount v issuer accountName secret = .error .conflict) ∧
    (∀ v', addAccount v issuer accountName secret = .ok v' →
        isBase32 (cleanSecret secret) = true ∧
        hasKey v.accounts issuer accountName = false ∧
        ∃ a, v'.accounts = v.accounts ++ [a] ∧ a.issuer = issuer ∧
          a.accountName = accountName ∧
          decrypt v'.masterKey a.secretNonce a.encryptedSecret =
            .ok (strBytes (cleanSecret secret))) ∧
    (cleanSecret secret).data =
      (secret.data.filter (fun c => !c.isWhitespace)).map Char.toUpper := by
  refine ⟨?_, ?_, ?_, rfl⟩
  · intro h
    unfold addAccount
    rw [if_pos (by rw [h]; rfl)]
  · intro h hk
    unfold addAccount
    rw [if_neg (by rw [h]; simp), if_pos hk]
  · intro v' h
    unfold addAccount at h
    by_cases hb : isBase32 (cleanSecret secret) = true
    · rw [if_neg (by rw [hb]; simp)] at h
      by_cases hk : hasKey v.accounts issuer accountName = true
      · rw [if_pos hk] at h
        cases h
      · rw [if_neg hk] at h
        injection h with h
        subst h
        refine ⟨hb, Bool.not_eq_true _ ▸ hk, ?_⟩
        refine ⟨⟨v.nextId, issuer, accountName,
          (encrypt v.masterKey (strBytes (cleanSecret secret)) v.rng).1,
          (encrypt v.masterKey (strBytes (cleanSecret secret)) v.rng).2.1,
          v.clock⟩, rfl, rfl, rfl, ?_⟩
        exact decrypt_encrypt v.masterKey (strBytes (cleanSecret secret)) v.rng
    · rw [if_pos (by simp [Bool.not_eq_true _ ▸ hb])] at h
      cases h

/-- Claim C9 witness: the scenario of the spec —
`add_account("GitHub","dev@example.com","JBSWY3DPEHPK3PXP")` — succeeds,
the cleaned secret is valid base32, the key is fresh, and a lowercase
secret with an illegal character is rejected with `ValidationError`. -/
theorem add_account_validation_witness :
    addAccount exVault "GitHub" "dev@example.com" exSecret = .ok exVaultAcct ∧
    isBase32 (cleanSecret exSecret) = true ∧
    hasKey exVault.accounts "GitHub" "dev@example.com" = false ∧
    addAccount exVault "GitHub" "dev@example.com" "not base32!" = .error .validation :=
  ⟨rfl,
   ((add_account_validation exVault "GitHub" "dev@example.com" exSecret).2.2.1
      exVaultAcct rfl).1,
   ((add_account_validation exVault "GitHub" "dev@example.com" exSecret).2.2.1
      exVaultAcct rfl).2.1,
   (add_account_validation exVault "GitHub" "dev@example.com" "not base32!").1 (by decide)⟩

/-! ## Store invariant preservation -/

theorem hasKey_eq_false {l : List Account} {issuer accountName : String}
    (h : hasKey l issuer accountName = false) :
    ∀ a ∈ l, (a.issuer, a.accountName) ≠ (issuer, accountName) := by
  intro a ha
  unfold hasKey at h
  rw [List.any_eq_false] at h
  have hne := h a ha
  unfold sameKey at hne
  simp only [Bool.and_eq_true, beq_iff_eq, not_and] at hne
  intro hpair
  rw [Prod.mk.injEq] at hpair
  exact hne hpair.1 hpair.2

theorem keysUniqueL_append {l : List Account} {a : Account}
    (hl : keysUniqueL l)
    (ha : ∀ b ∈ l, (b.issuer, b.accountName) ≠ (a.issuer, a.accountName)) :
    keysUniqueL (l ++ [a]) := by
  unfold keysUniqueL at *
  rw [List.pairwise_append]
  refine ⟨hl, List.pairwise_singleton _ _, ?_⟩
  intro b hb c hc
  rw [List.mem_singleton] at hc
  subst hc
  exact ha b hb

theorem storeInv_addAccount {v v' : Vault} {issuer accountName secret : String}
    (hinv : storeInv v) (h : addAccount v issuer accountName secret = .ok v') :
    storeInv v' := by
  obtain ⟨hu, hnd, hid⟩ := hinv
  unfold addAccount at h
  by_cases hb : isBase32 (cleanSecret secret) = true
  · rw [if_neg (by rw [hb]; simp)] at h
    by_cases hk : hasKey v.accounts issuer accountName = true
    · rw [if_pos hk] at h
      cases h
    · rw [if_neg hk] at h
      injection h with h
      subst h
      have hk' : hasKey v.accounts issuer accountName = false :=
        Bool.not_eq_true _ ▸ hk
      refine ⟨?_, ?_, ?_⟩
      · exact keysUniqueL_append hu (hasKey_eq_false hk')
      · simp only [List.map_append, List.map_cons, List.map_nil]
        rw [List.nodup_append]
        refine ⟨hnd, List.nodup_singleton _, ?_⟩
        intro x hx
        rw [List.mem_map] at hx
        obtain ⟨b, hb2, hbx⟩ := hx
        have := hid b hb2
        rw [List.mem_singleton]
        omega
      · intro a ha
        rw [List.mem_append, List.mem_singleton] at ha
        cases ha with
        | inl ha => exact lt_trans (hid a ha) (Nat.lt_succ_self _)
        | inr ha => subst ha; exact Nat.lt_succ_self _
  · rw [if_pos (by simp [Bool.not_eq_true _ ▸ hb])] at h
    cases h

theorem storeInv_deleteAccount {v v' : Vault} {id : Nat}
    (hinv : storeInv v) (h : deleteAccount v id = .ok v') : storeInv v' := by
  obtain ⟨hu, hnd, hid⟩ := hinv
  unfold deleteAccount at h
  split at h
  · injection h with h
    subst h
    refine ⟨?_, ?_, ?_⟩
    · exact hu.sublist (List.filter_sublist _)
    · exact hnd.sublist ((List.filter_sublist _).map _)
    · intro a ha
      exact hid a (List.mem_of_mem_filter ha)
  · cases h

theorem keysUniqueL_update (id : Nat) (issuer accountName : String) :
    ∀ (l : List Account),
      (l.map Account.id).Nodup →
      keysUniqueL l →
      (∀ a ∈ l, a.issuer = issuer → a.accountName = accountName → a.id = id) →
      keysUniqueL (l.map (fun a =>
        if a.id == id then { a with issuer := issuer, accountName := accountName }
        else a)) := by
  intro l
  induction l with
  | nil => intro _ _ _; exact List.Pairwise.nil
  | cons a l ih =>
      intro hnd hu hc
      rw [List.map_cons] at *
      rw [List.nodup_cons] at hnd
      unfold keysUniqueL at hu ⊢
      rw [List.pairwise_cons] at hu ⊢
      constructor
      · intro b' hb'
        rw [List.mem_map] at hb'
        obtain ⟨b, hb, hfb⟩ := hb'
        subst hfb
        by_cases hai : a.id = id
        · by_cases hbi : b.id = id
          · exfalso
            apply hnd.1
            rw [List.mem_map]
            exact ⟨b, hb, by omega⟩
          · rw [if_pos (by rwa [beq_iff_eq]), if_neg (by rw [beq_iff_eq]; exact hbi)]
            intro hpair
            rw [Prod.mk.injEq] at hpair
            exact hbi (hc b (List.mem_cons_of_mem _ hb) hpair.1.symm hpair.2.symm)
        · rw [if_neg (by rw [beq_iff_eq]; exact hai)]
          by_cases hbi : b.id = id
          · rw [if_pos (by rwa [beq_iff_eq])]
            intro hpair
            rw [Prod.mk.injEq] at hpair
            exact hai (hc a (List.mem_cons_self _ _) hpair.1 hpair.2)
          · rw [if_neg (by rw [beq_iff_eq]; exact hbi)]
            exact hu.1 b hb
      · exact ih hnd.2 hu.2 (fun b hb => hc b (List.mem_cons_of_mem _ hb))

theorem storeInv_updateAccount {v v' : Vault} {id : Nat} {issuer accountName : String}
    (hinv : storeInv v) (h : updateAccount v id issuer accountName = .ok v') :
    storeInv v' := by
  obtain ⟨hu, hnd, hid⟩ := hinv
  unfold updateAccount at h
  split at h
  · cases h
  · split at h
    · cases h
    · rename_i hconf
      injection h with h
      subst h
      refine ⟨?_, ?_, ?_⟩
      · apply keysUniqueL_update id issuer accountName v.accounts hnd hu
        intro a ha hi hn
        by_contra hne
        apply hconf
        rw [List.any_eq_true]
        refine ⟨a, ha, ?_⟩
        rw [Bool.and_eq_true, bne_iff_ne]
        unfold sameKey
        rw [Bool.and_eq_true, beq_iff_eq, beq_iff_eq]
        exact ⟨⟨hi, hn⟩, hne⟩
      · rw [List.map_map]
        have heq : (Account.id ∘ fun a : Account =>
            if a.id == id then { a with issuer := issuer, accountName := accountName }
            else a) = Account.id := by
          funext a
          by_cases hai : a.id = id <;> simp [Function.comp, hai]
        rw [heq]
        exact hnd
      · intro a ha
        rw [List.mem_map] at ha
        obtain ⟨b, hb, hba⟩ := ha
        have hba' : a.id = b.id := by
          subst hba
          by_cases hbi : b.id = id <;> simp [hbi]
        rw [hba']
        exact hid b hb

/-- Claim C2: `(issuer, account_name)` is unique across stored accounts:
a second `add_account` with an identical issuer/account pair yields
`ConflictError` and the table holds exactly one matching row; and every
operation of the store — add, update, delete, and the PIN operations —
preserves the uniqueness invariant (as part of the reachable-state
invariant `storeInv`). -/
theorem account_key_uniqueness (v : Vault) (issuer accountName secret : String)
    (hinv : storeInv v) :
    (∀ v', addAccount v issuer accountName secret = .ok v' →
        addAccount v' issuer accountName secret = .error .conflict ∧
        v'.accounts.countP (fun a => sameKey a issuer accountName) = 1 ∧
        keysUniqueL v'.accounts ∧ storeInv v') ∧
    (∀ id issuer2 accountName2 v',
        updateAccount v id issuer2 accountName2 = .ok v' →
        keysUniqueL v'.accounts ∧ storeInv v') ∧
    (∀ id v', deleteAccount v id = .ok v' →
        keysUniqueL v'.accounts ∧ storeInv v') ∧
    (∀ pin v', setPin v pin = .ok v' → v'.accounts = v.accounts) ∧
    (∀ pin v', removePin v pin = .ok v' → v'.accounts = v.accounts) := by
  refine ⟨?_, ?_, ?_, ?_, ?_⟩
  · intro v' h
    have hinv' : storeInv v' := storeInv_addAccount hinv h
    unfold addAccount at h
    by_cases hb : isBase32 (cleanSecret secret) = true
    · rw [if_neg (by rw [hb]; simp)] at h
      by_cases hk : hasKey v.accounts issuer accountName = true
      · rw [if_pos hk] at h
        cases h
      · rw [if_neg hk] at h
        injection h with h
        have hkey : hasKey v'.accounts issuer accountName = true := by
          rw [← h]
          unfold hasKey
          rw [List.any_eq_true]
          refine ⟨_, List.mem_append_right _ (List.mem_singleton_self _), ?_⟩
          unfold sameKey
          simp
        refine ⟨?_, ?_, hinv'.1, hinv'⟩
        · unfold addAccount
          rw [if_neg (by rw [hb]; simp), if_pos hkey]
        · rw [← h]
          have hcount0 : v.accounts.countP (fun a => sameKey a issuer accountName) = 0 := by
            rw [List.countP_eq_zero]
            intro a ha
            have hk' : hasKey v.accounts issuer accountName = false :=
              Bool.not_eq_true _ ▸ hk
            unfold hasKey at hk'
            rw [List.any_eq_false] at hk'
            exact hk' a ha
          rw [List.countP_append, hcount0]
          unfold sameKey
          simp
    · rw [if_pos (by simp [Bool.not_eq_true _ ▸ hb])] at h
      cases h
  · intro id issuer2 accountName2 v' h
    have hinv' := storeInv_updateAccount hinv h
    exact ⟨hinv'.1, hinv'⟩
  · intro id v' h
    have hinv' := storeInv_deleteAccount hinv h
    exact ⟨hinv'.1, hinv'⟩
  · intro pin v' h
    unfold setPin at h
    split at h
    · injection h with h
      subst h
      rfl
    · cases h
  · intro pin v' h
    unfold removePin at h
    split at h
    · injection h with h
      subst h
      rfl
    · cases h

/-- Claim C2 witness: adding `("GitHub", "dev@example.com")` to the fresh
vault and adding it a second time yields `ConflictError`, with exactly one
matching row in the table. -/
theorem account_key_uniqueness_witness :
    storeInv exVault ∧
    addAccount exVaultAcct "GitHub" "dev@example.com" exSecret = .error .conflict ∧
    exVaultAcct.accounts.countP (fun a => sameKey a "GitHub" "dev@example.com") = 1 := by
  have hinv : storeInv exVault := by
    refine ⟨?_, ?_, ?_⟩
    · exact List.Pairwise.nil
    · exact List.nodup_nil
    · intro a ha
      cases ha
  refine ⟨hinv, ?_, ?_⟩
  · exact ((account_key_uniqueness exVault "GitHub" "dev@example.com" exSecret hinv).1
      exVaultAcct rfl).1
  · exact ((account_key_uniqueness exVault "GitHub" "dev@example.com" exSecret hinv).1
      exVaultAcct rfl).2.1

end Secure2FA
